import Mathlib

/-!
# Verification of the MTA arrivals service

Shallow embedding of the repository's core logic:

* `mta_parser.py` — `MTAArrivalsService._process_arrivals` (arrival
  aggregation: window filter, per-(station,route) grouping, sort, cap,
  merge, final sort) and `MTAFeedParser.get_mta_feed_data` (per-endpoint
  failure isolation);
* `station_lookup.py` — `StationLookup.search_stations` (case-insensitive
  substring search over the name → stop-ids table);
* `api.py` — the `/stations/search` endpoint's length validation.

Modelling conventions:

* Python `int` is Lean `Int`; Python floor division `//` is `Int.fdiv`.
* The stop-time dicts built by `MTAFeedParser._parse_trip_update` always
  carry the keys `stop_id`, `arrival_time`, `departure_time`, `delay`,
  `stop_sequence` (possibly mapped to `None`); we model such a dict as a
  structure with `Option` fields.  Consequently `stop_update.get('delay', 0)`
  returns the stored value (the default `0` would apply only to a dict
  missing the key, which the parser never produces), and
  `stop_update.get('arrival_time')` returns the stored `Option`.
* Python's truthiness test `if arrival_time` is `t ≠ 0` on a present value
  and false on an absent one.
* Python `dict`s preserve insertion order, and `defaultdict` appends create
  a key at the end on first use; we model the two-level
  `station_route_arrivals` mapping as insertion-ordered association lists.
* Python's `sorted` is a stable sort; any stable sort with the same key
  computes the same list, so we model it with `List.insertionSort`
  (stable: it inserts an earlier element in front of later equal keys).
* Fetching feeds is I/O; `get_mta_feed_data` is modelled over the list of
  per-endpoint outcomes (`Except` = raised exception or parsed updates),
  which is exactly the information the `try/except` loop consumes.
-/

/-- One stop-time dict as produced by `MTAFeedParser._parse_trip_update`:
all five keys present, optional values. -/
structure StopTimeUpdate where
  stop_id : String
  arrival_time : Option Int
  departure_time : Option Int
  delay : Option Int
  stop_sequence : Option Int
deriving DecidableEq, Repr

/-- The `TripUpdate` dataclass of `mta_parser.py`. -/
structure TripUpdate where
  trip_id : String
  route_id : String
  direction_id : Option Int
  stop_updates : List StopTimeUpdate
deriving DecidableEq, Repr

/-- The `arrival_data` dict built inside `_process_arrivals`. -/
structure ArrivalData where
  route : String
  arrival_time : Int
  minutes_away : Int
  trip_id : String
  direction_id : Option Int
  delay : Option Int
deriving DecidableEq, Repr

/-- Inner level of `station_route_arrivals`: route id → list of arrivals,
in insertion order. -/
abbrev RouteGroups := List (String × List ArrivalData)

/-- `station_route_arrivals`: station id → route id → arrivals,
in insertion order. -/
abbrev Grouping := List (String × RouteGroups)

/-- `defaultdict(list)` append: `d[k].append(v)` — extends the list at `k`
in place, or creates the key at the end. -/
def ddAppend {β : Type} (g : List (String × List β)) (k : String) (v : β) :
    List (String × List β) :=
  match g with
  | [] => [(k, [v])]
  | p :: rest => if p.1 = k then (p.1, p.2 ++ [v]) :: rest else p :: ddAppend rest k v

/-- `station_route_arrivals[stop_id][route_id].append(v)` on the two-level
`defaultdict(lambda: defaultdict(list))`. -/
def dd2Append (g : Grouping) (st rt : String) (v : ArrivalData) : Grouping :=
  match g with
  | [] => [(st, ddAppend [] rt v)]
  | p :: rest => if p.1 = st then (p.1, ddAppend p.2 rt v) :: rest else p :: dd2Append rest st rt v

/-- The `arrival_data` dict literal of `_process_arrivals` for a qualifying
record with present `arrival_time` `t`.  `minutes_away` is Python's floor
division `(arrival_time - current_time) // 60`; `delay` is
`stop_update.get('delay', 0)`, i.e. the stored (possibly absent) value,
since the parser always sets the key. -/
def mkArrivalData (current_time : Int) (trip : TripUpdate) (su : StopTimeUpdate)
    (t : Int) : ArrivalData :=
  { route := trip.route_id
    arrival_time := t
    minutes_away := Int.fdiv (t - current_time) 60
    trip_id := trip.trip_id
    direction_id := trip.direction_id
    delay := su.delay }

/-- One iteration of the inner loop of `_process_arrivals`:
`if arrival_time and current_time < arrival_time <= cutoff_time:` append
the arrival to `station_route_arrivals[stop_id][route_id]`. -/
def processStop (current_time cutoff_time : Int) (trip : TripUpdate)
    (g : Grouping) (su : StopTimeUpdate) : Grouping :=
  match su.arrival_time with
  | none => g
  | some t =>
    if t ≠ 0 ∧ current_time < t ∧ t ≤ cutoff_time then
      dd2Append g su.stop_id trip.route_id (mkArrivalData current_time trip su t)
    else g

/-- The inner `for stop_update in trip.stop_updates` loop. -/
def groupTrip (current_time cutoff_time : Int) (g : Grouping) (trip : TripUpdate) :
    Grouping :=
  trip.stop_updates.foldl (processStop current_time cutoff_time trip) g

/-- The grouping phase of `_process_arrivals`: both nested loops, starting
from the empty `defaultdict`. -/
def groupArrivals (current_time cutoff_time : Int) (trip_updates : List TripUpdate) :
    Grouping :=
  trip_updates.foldl (groupTrip current_time cutoff_time) []

/-- The sort key `lambda x: x['arrival_time']`, as a relation. -/
def byTime (a b : ArrivalData) : Prop := a.arrival_time ≤ b.arrival_time

instance : DecidableRel byTime := fun a b => Int.decLe a.arrival_time b.arrival_time

instance : IsTotal ArrivalData byTime := ⟨fun a b => Int.le_total a.arrival_time b.arrival_time⟩

instance : IsTrans ArrivalData byTime := ⟨fun _ _ _ h h2 => le_trans h h2⟩

/-- Python's stable `sorted(·, key=lambda x: x['arrival_time'])`. -/
def sortByArrivalTime (l : List ArrivalData) : List ArrivalData :=
  List.insertionSort byTime l

/-- The per-station merge of `_process_arrivals`: for each route group (in
insertion order), sort by arrival time, truncate to
`max_trains_per_route`, and extend `station_arrivals`. -/
def stationMerge (max_trains_per_route : Nat) (routes : RouteGroups) :
    List ArrivalData :=
  routes.foldl (fun acc q => acc ++ (sortByArrivalTime q.2).take max_trains_per_route) []

/-- `MTAArrivalsService._process_arrivals`, with the wall clock
`int(time.time())` made an explicit parameter `current_time`. -/
def _process_arrivals (trip_updates : List TripUpdate) (minutes_ahead : Int)
    (max_trains_per_route : Nat) (current_time : Int) :
    List (String × List ArrivalData) :=
  let cutoff_time := current_time + minutes_ahead * 60
  (groupArrivals current_time cutoff_time trip_updates).map
    (fun p => (p.1, sortByArrivalTime (stationMerge max_trains_per_route p.2)))

/-- The qualifying arrivals one stop-time record contributes at station `s`:
`[arrival]` when its `stop_id` is `s`, its `arrival_time` is present,
truthy, and inside the window, else `[]`. -/
def stopQualAt (current_time cutoff_time : Int) (s : String) (trip : TripUpdate)
    (su : StopTimeUpdate) : List ArrivalData :=
  match su.arrival_time with
  | none => []
  | some t =>
    if su.stop_id = s ∧ t ≠ 0 ∧ current_time < t ∧ t ≤ cutoff_time then
      [mkArrivalData current_time trip su t]
    else []

/-- The qualifying arrivals of station `s` and route `r`, in source order. -/
def qualifying (current_time cutoff_time : Int) (trip_updates : List TripUpdate)
    (s r : String) : List ArrivalData :=
  trip_updates.flatMap (fun trip =>
    if trip.route_id = r then
      trip.stop_updates.flatMap (stopQualAt current_time cutoff_time s trip)
    else [])

/-- All qualifying arrivals of station `s` (any route), in source order. -/
def qualStation (current_time cutoff_time : Int) (trip_updates : List TripUpdate)
    (s : String) : List ArrivalData :=
  trip_updates.flatMap (fun trip =>
    trip.stop_updates.flatMap (stopQualAt current_time cutoff_time s trip))

/-- Association-list lookup with default (first occurrence wins, matching a
Python dict whose keys are unique). -/
def lookupD {β : Type} (g : List (String × β)) (k : String) (d : β) : β :=
  match g with
  | [] => d
  | p :: rest => if p.1 = k then p.2 else lookupD rest k d

/-- `station_route_arrivals[s][r]` with `defaultdict` semantics (reads as
`[]` when absent). -/
def lookup2D (g : Grouping) (s r : String) : List ArrivalData :=
  lookupD (lookupD g s []) r []

/-- The station keys of a grouping / output mapping, in insertion order. -/
def keysOf {β : Type} (g : List (String × β)) : List String := g.map Prod.fst

/-- `MTAFeedParser.get_mta_feed_data`: the `try/except` loop over endpoints,
given each endpoint's outcome (`Except.error` = any exception raised while
fetching or decoding that endpoint, `Except.ok` = its parsed trip updates).
The function is total: it always returns normally. -/
def get_mta_feed_data (fetch_results : List (Except String (List TripUpdate))) :
    List TripUpdate :=
  fetch_results.foldl
    (fun acc r => match r with
      | Except.ok ts => acc ++ ts
      | Except.error _ => acc) []

/-- The trip-update lists of the endpoints that succeeded, in order. -/
def okFeeds (fetch_results : List (Except String (List TripUpdate))) :
    List (List TripUpdate) :=
  fetch_results.filterMap (fun r => match r with
    | Except.ok ts => some ts
    | Except.error _ => none)

/-- Python's substring test `needle` is a prefix of `hay` (char lists). -/
def startsWithChars : List Char → List Char → Bool
  | [], _ => true
  | _ :: _, [] => false
  | a :: needle, b :: hay => a == b && startsWithChars needle hay

/-- Python's `needle in hay` on strings: contiguous substring containment
(`"" in s` is `True`). -/
def containsChars (needle : List Char) : List Char → Bool
  | [] => startsWithChars needle []
  | b :: hay => startsWithChars needle (b :: hay) || containsChars needle hay

/-- The `_name_to_stop_ids` table of `StationLookup`: station name → stop
ids, in insertion order. -/
abbrev StationTable := List (String × List String)

/-- `StationLookup.search_stations`: keep the entries whose lowercased name
contains the lowercased query as a substring. -/
def StationLookup_search_stations (table : StationTable) (query : String) :
    StationTable :=
  table.filter (fun p => containsChars query.toLower.toList p.1.toLower.toList)

/-- The `/stations/search` endpoint of `api.py`: HTTP 400 when
`len(q) < 2`, else the search result.  `Except.error 400` models the
raised `HTTPException(status_code=400, ...)`. -/
def api_search_stations (table : StationTable) (q : String) :
    Except Nat StationTable :=
  if q.length < 2 then Except.error 400
  else Except.ok (StationLookup_search_stations table q)

/-! ## Association-list lemmas -/

theorem ddAppend_ne_nil {β : Type} (g : List (String × List β)) (k : String) (v : β) :
    ddAppend g k v ≠ [] := by
  cases g with
  | nil => simp [ddAppend]
  | cons p rest =>
    unfold ddAppend
    by_cases h : p.1 = k <;> simp [h]

theorem mem_keysOf_ddAppend {β : Type} {g : List (String × List β)} {k s : String}
    {v : β} : s ∈ keysOf (ddAppend g k v) ↔ s ∈ keysOf g ∨ s = k := by
  induction g with
  | nil => simp [ddAppend, keysOf]
  | cons p rest ih =>
    unfold ddAppend
    by_cases h : p.1 = k
    · subst h
      simp [keysOf]
      tauto
    · simp only [if_neg h, keysOf, List.map_cons, List.mem_cons] at ih ⊢
      rw [or_assoc]
      exact or_congr Iff.rfl ih

theorem keysOf_ddAppend {β : Type} {g : List (String × List β)} {k : String}
    {v : β} : keysOf (ddAppend g k v) = keysOf g ∨
      keysOf (ddAppend g k v) = keysOf g ++ [k] ∧ k ∉ keysOf g := by
  induction g with
  | nil => simp [ddAppend, keysOf]
  | cons p rest ih =>
    unfold ddAppend
    by_cases h : p.1 = k
    · left
      simp [keysOf, h]
    · rcases ih with ih | ⟨ih, hk⟩
      · left
        simp [keysOf, if_neg h] at ih ⊢
        exact ih
      · right
        constructor
        · simp [keysOf, if_neg h] at ih ⊢
          exact ih
        · simp only [keysOf, List.map_cons, List.mem_cons]
          rintro (rfl | hmem)
          · exact h rfl
          · exact hk hmem

theorem nodup_keysOf_ddAppend {β : Type} {g : List (String × List β)} {k : String}
    {v : β} (h : (keysOf g).Nodup) : (keysOf (ddAppend g k v)).Nodup := by
  rcases @keysOf_ddAppend β g k v with he | ⟨he, hk⟩
  · rw [he]; exact h
  · rw [he]
    simp [List.nodup_append, h, hk]

theorem lookupD_ddAppend {β : Type} (g : List (String × List β)) (k s : String)
    (v : β) : lookupD (ddAppend g k v) s [] =
      if s = k then lookupD g k [] ++ [v] else lookupD g s [] := by
  induction g with
  | nil =>
    by_cases h : s = k
    · simp [ddAppend, lookupD, h]
    · simp [ddAppend, lookupD, h, Ne.symm h]
  | cons p rest ih =>
    unfold ddAppend
    by_cases hpk : p.1 = k
    · rw [if_pos hpk]
      by_cases hps : p.1 = s
      · have hsk : s = k := hps ▸ hpk
        simp [lookupD, hps, hsk, hpk]
      · have hsk : ¬ s = k := fun he => hps (hpk.trans he.symm)
        simp [lookupD, hps, hsk]
    · rw [if_neg hpk]
      by_cases hps : p.1 = s
      · have hsk : ¬ s = k := fun he => hpk (hps.trans he)
        simp [lookupD, hps, hsk]
      · simp only [lookupD, if_neg hps, if_neg hpk]
        exact ih

theorem mem_ddAppend_elem {β : Type} {g : List (String × List β)} {k : String}
    {v : β} {p : String × List β} {x : β} (hp : p ∈ ddAppend g k v) (hx : x ∈ p.2) :
    (∃ q ∈ g, q.1 = p.1 ∧ x ∈ q.2) ∨ (x = v ∧ p.1 = k) := by
  induction g with
  | nil =>
    simp [ddAppend] at hp
    subst hp
    simp at hx
    right
    exact ⟨hx, rfl⟩
  | cons q rest ih =>
    unfold ddAppend at hp
    by_cases h : q.1 = k
    · rw [if_pos h] at hp
      rcases List.mem_cons.mp hp with rfl | hp
      · simp only [List.mem_append, List.mem_singleton] at hx
        rcases hx with hx | rfl
        · left
          exact ⟨q, List.mem_cons_self q rest, rfl, hx⟩
        · right
          exact ⟨rfl, h⟩
      · left
        exact ⟨p, List.mem_cons_of_mem q hp, rfl, hx⟩
    · rw [if_neg h] at hp
      rcases List.mem_cons.mp hp with rfl | hp
      · left
        exact ⟨p, List.mem_cons_self p rest, rfl, hx⟩
      · rcases ih hp with ⟨q', hq', he, hxq⟩ | hv
        · left
          exact ⟨q', List.mem_cons_of_mem q hq', he, hxq⟩
        · right
          exact hv

theorem mem_ddAppend_ne_nil {β : Type} {g : List (String × List β)} {k : String}
    {v : β} (h : ∀ q ∈ g, q.2 ≠ []) : ∀ p ∈ ddAppend g k v, p.2 ≠ [] := by
  induction g with
  | nil =>
    intro p hp
    simp [ddAppend] at hp
    subst hp
    simp
  | cons q rest ih =>
    intro p hp
    unfold ddAppend at hp
    by_cases hq : q.1 = k
    · rw [if_pos hq] at hp
      rcases List.mem_cons.mp hp with rfl | hp
      · simp
      · exact h p (List.mem_cons_of_mem q hp)
    · rw [if_neg hq] at hp
      rcases List.mem_cons.mp hp with rfl | hp
      · exact h p (List.mem_cons_self p rest)
      · exact ih (fun q' hq' => h q' (List.mem_cons_of_mem q hq')) p hp

theorem mem_keysOf_dd2Append {g : Grouping} {st rt s : String} {v : ArrivalData} :
    s ∈ keysOf (dd2Append g st rt v) ↔ s ∈ keysOf g ∨ s = st := by
  induction g with
  | nil => simp [dd2Append, keysOf]
  | cons p rest ih =>
    unfold dd2Append
    by_cases h : p.1 = st
    · subst h
      simp [keysOf]
      tauto
    · simp only [if_neg h, keysOf, List.map_cons, List.mem_cons] at ih ⊢
      rw [or_assoc]
      exact or_congr Iff.rfl ih

theorem keysOf_dd2Append {g : Grouping} {st rt : String} {v : ArrivalData} :
    keysOf (dd2Append g st rt v) = keysOf g ∨
      keysOf (dd2Append g st rt v) = keysOf g ++ [st] ∧ st ∉ keysOf g := by
  induction g with
  | nil => simp [dd2Append, keysOf]
  | cons p rest ih =>
    unfold dd2Append
    by_cases h : p.1 = st
    · left
      simp [keysOf, h]
    · rcases ih with ih | ⟨ih, hk⟩
      · left
        simp [keysOf, if_neg h] at ih ⊢
        exact ih
      · right
        constructor
        · simp [keysOf, if_neg h] at ih ⊢
          exact ih
        · simp only [keysOf, List.map_cons, List.mem_cons]
          rintro (rfl | hmem)
          · exact h rfl
          · exact hk hmem

theorem nodup_keysOf_dd2Append {g : Grouping} {st rt : String} {v : ArrivalData}
    (h : (keysOf g).Nodup) : (keysOf (dd2Append g st rt v)).Nodup := by
  rcases @keysOf_dd2Append g st rt v with he | ⟨he, hk⟩
  · rw [he]; exact h
  · rw [he]
    simp [List.nodup_append, h, hk]

theorem mem_dd2Append {g : Grouping} {st rt : String} {v : ArrivalData}
    {p : String × RouteGroups} (hp : p ∈ dd2Append g st rt v) :
    p ∈ g ∨ ∃ routes0, p.1 = st ∧ p.2 = ddAppend routes0 rt v ∧
      ((st, routes0) ∈ g ∨ routes0 = []) := by
  induction g with
  | nil =>
    simp [dd2Append] at hp
    subst hp
    right
    exact ⟨[], rfl, rfl, Or.inr rfl⟩
  | cons q rest ih =>
    unfold dd2Append at hp
    by_cases h : q.1 = st
    · rw [if_pos h] at hp
      rcases List.mem_cons.mp hp with rfl | hp
      · right
        refine ⟨q.2, h, rfl, Or.inl ?_⟩
        have : (st, q.2) = q := by
          rw [← h]
        rw [this]
        exact List.mem_cons_self q rest
      · left
        exact List.mem_cons_of_mem q hp
    · rw [if_neg h] at hp
      rcases List.mem_cons.mp hp with rfl | hp
      · left
        exact List.mem_cons_self p rest
      · rcases ih hp with hmem | ⟨routes0, he1, he2, hm⟩
        · left
          exact List.mem_cons_of_mem q hmem
        · right
          refine ⟨routes0, he1, he2, ?_⟩
          rcases hm with hm | hm
          · exact Or.inl (List.mem_cons_of_mem q hm)
          · exact Or.inr hm

theorem lookupD_dd2Append (g : Grouping) (st rt s : String) (v : ArrivalData) :
    lookupD (dd2Append g st rt v) s [] =
      if s = st then ddAppend (lookupD g st []) rt v else lookupD g s [] := by
  induction g with
  | nil =>
    by_cases h : s = st
    · simp [dd2Append, lookupD, h]
    · simp [dd2Append, lookupD, h, Ne.symm h]
  | cons p rest ih =>
    unfold dd2Append
    by_cases hpk : p.1 = st
    · rw [if_pos hpk]
      by_cases hps : p.1 = s
      · have hsk : s = st := hps ▸ hpk
        simp [lookupD, hps, hsk, hpk]
      · have hsk : ¬ s = st := fun he => hps (hpk.trans he.symm)
        simp [lookupD, hps, hsk]
    · rw [if_neg hpk]
      by_cases hps : p.1 = s
      · have hsk : ¬ s = st := fun he => hpk (hps.trans he)
        simp [lookupD, hps, hsk]
      · simp only [lookupD, if_neg hps, if_neg hpk]
        exact ih

theorem lookup2D_dd2Append (g : Grouping) (st rt s r : String) (v : ArrivalData) :
    lookup2D (dd2Append g st rt v) s r =
      if s = st ∧ r = rt then lookup2D g s r ++ [v] else lookup2D g s r := by
  unfold lookup2D
  rw [lookupD_dd2Append]
  by_cases hs : s = st
  · rw [if_pos hs, lookupD_ddAppend]
    by_cases hr : r = rt
    · rw [if_pos hr, if_pos ⟨hs, hr⟩, hs, hr]
    · rw [if_neg hr, if_neg (fun hc => hr hc.2), hs]
  · rw [if_neg hs, if_neg (fun hc => hs hc.1)]

/-! ## Grouping invariants -/

/-- Structural well-formedness of `station_route_arrivals`: station keys are
distinct, route keys are distinct within a station, no station or route
entry is empty, and every stored arrival carries its route key as its
`route` field. -/
def GInv (g : Grouping) : Prop :=
  (keysOf g).Nodup ∧
  (∀ p ∈ g, (keysOf p.2).Nodup) ∧
  (∀ p ∈ g, p.2 ≠ []) ∧
  (∀ p ∈ g, ∀ q ∈ p.2, q.2 ≠ []) ∧
  (∀ p ∈ g, ∀ q ∈ p.2, ∀ a ∈ q.2, a.route = q.1)

theorem GInv_nil : GInv [] := by
  refine ⟨List.nodup_nil, ?_, ?_, ?_, ?_⟩ <;> intro p hp <;> simp at hp

theorem GInv_dd2Append {g : Grouping} {st rt : String} {v : ArrivalData}
    (h : GInv g) (hv : v.route = rt) : GInv (dd2Append g st rt v) := by
  obtain ⟨h1, h2, h3, h4, h5⟩ := h
  refine ⟨nodup_keysOf_dd2Append h1, ?_, ?_, ?_, ?_⟩
  · intro p hp
    rcases mem_dd2Append hp with hp | ⟨routes0, _, he2, hm⟩
    · exact h2 p hp
    · rw [he2]
      rcases hm with hm | rfl
      · exact nodup_keysOf_ddAppend (h2 (st, routes0) hm)
      · exact nodup_keysOf_ddAppend List.nodup_nil
  · intro p hp
    rcases mem_dd2Append hp with hp | ⟨routes0, _, he2, _⟩
    · exact h3 p hp
    · rw [he2]
      exact ddAppend_ne_nil routes0 rt v
  · intro p hp q hq
    rcases mem_dd2Append hp with hp | ⟨routes0, _, he2, hm⟩
    · exact h4 p hp q hq
    · rw [he2] at hq
      rcases hm with hm | rfl
      · exact mem_ddAppend_ne_nil (h4 (st, routes0) hm) q hq
      · exact mem_ddAppend_ne_nil (fun q' hq' => by simp at hq') q hq
  · intro p hp q hq a ha
    rcases mem_dd2Append hp with hp | ⟨routes0, _, he2, hm⟩
    · exact h5 p hp q hq a ha
    · rw [he2] at hq
      rcases mem_ddAppend_elem hq ha with ⟨q', hq', he, haq⟩ | ⟨rfl, he⟩
      · rcases hm with hm | rfl
        · exact he ▸ h5 (st, routes0) hm q' hq' a haq
        · simp at hq'
      · rw [he]
        exact hv

theorem GInv_processStop {current_time cutoff_time : Int} {trip : TripUpdate}
    {g : Grouping} {su : StopTimeUpdate} (h : GInv g) :
    GInv (processStop current_time cutoff_time trip g su) := by
  unfold processStop
  cases su.arrival_time with
  | none => exact h
  | some t =>
    show GInv (if t ≠ 0 ∧ current_time < t ∧ t ≤ cutoff_time then
      dd2Append g su.stop_id trip.route_id (mkArrivalData current_time trip su t) else g)
    by_cases hc : t ≠ 0 ∧ current_time < t ∧ t ≤ cutoff_time
    · rw [if_pos hc]
      exact GInv_dd2Append h rfl
    · rw [if_neg hc]
      exact h

theorem GInv_groupTrip {current_time cutoff_time : Int} {g : Grouping}
    {trip : TripUpdate} (h : GInv g) :
    GInv (groupTrip current_time cutoff_time g trip) := by
  unfold groupTrip
  generalize trip.stop_updates = sus
  induction sus generalizing g with
  | nil => exact h
  | cons su rest ih =>
    rw [List.foldl_cons]
    exact ih (GInv_processStop h)

theorem GInv_groupArrivals (current_time cutoff_time : Int)
    (trip_updates : List TripUpdate) :
    GInv (groupArrivals current_time cutoff_time trip_updates) := by
  unfold groupArrivals
  generalize hg : ([] : Grouping) = g0
  have h0 : GInv g0 := hg ▸ GInv_nil
  clear hg
  induction trip_updates generalizing g0 with
  | nil => exact h0
  | cons trip rest ih =>
    rw [List.foldl_cons]
    exact ih _ (GInv_groupTrip h0)

/-! ## Provenance: every stored arrival comes from a qualifying record -/

/-- `a` is stored somewhere under station key `s` in the grouping. -/
def MemAt (s : String) (a : ArrivalData) (g : Grouping) : Prop :=
  ∃ p ∈ g, p.1 = s ∧ ∃ q ∈ p.2, a ∈ q.2

theorem MemAt_dd2Append {s : String} {a : ArrivalData} {g : Grouping}
    {st rt : String} {v : ArrivalData} (h : MemAt s a (dd2Append g st rt v)) :
    MemAt s a g ∨ (a = v ∧ s = st) := by
  obtain ⟨p, hp, hps, q, hq, ha⟩ := h
  rcases mem_dd2Append hp with hpg | ⟨routes0, he1, he2, hm⟩
  · exact Or.inl ⟨p, hpg, hps, q, hq, ha⟩
  · rw [he2] at hq
    rcases mem_ddAppend_elem hq ha with ⟨q', hq', _, haq⟩ | ⟨rfl, _⟩
    · rcases hm with hm | rfl
      · exact Or.inl ⟨(st, routes0), hm, he1 ▸ hps, q', hq', haq⟩
      · simp at hq'
    · exact Or.inr ⟨rfl, hps ▸ he1 ▸ rfl⟩

theorem MemAt_processStop {current_time cutoff_time : Int} {trip : TripUpdate}
    {g : Grouping} {su : StopTimeUpdate} {s : String} {a : ArrivalData}
    (h : MemAt s a (processStop current_time cutoff_time trip g su)) :
    MemAt s a g ∨ ∃ t, su.arrival_time = some t ∧ su.stop_id = s ∧
      t ≠ 0 ∧ current_time < t ∧ t ≤ cutoff_time ∧
      a = mkArrivalData current_time trip su t := by
  unfold processStop at h
  cases hat : su.arrival_time with
  | none =>
    rw [hat] at h
    exact Or.inl h
  | some t =>
    simp only [hat] at h
    by_cases hc : t ≠ 0 ∧ current_time < t ∧ t ≤ cutoff_time
    · rw [if_pos hc] at h
      rcases MemAt_dd2Append h with h | ⟨rfl, rfl⟩
      · exact Or.inl h
      · exact Or.inr ⟨t, rfl, rfl, hc.1, hc.2.1, hc.2.2, rfl⟩
    · rw [if_neg hc] at h
      exact Or.inl h

theorem MemAt_groupTrip {current_time cutoff_time : Int} {g : Grouping}
    {trip : TripUpdate} {s : String} {a : ArrivalData}
    (h : MemAt s a (groupTrip current_time cutoff_time g trip)) :
    MemAt s a g ∨ ∃ su ∈ trip.stop_updates, ∃ t, su.arrival_time = some t ∧
      su.stop_id = s ∧ t ≠ 0 ∧ current_time < t ∧ t ≤ cutoff_time ∧
      a = mkArrivalData current_time trip su t := by
  unfold groupTrip at h
  revert h
  generalize trip.stop_updates = sus
  induction sus generalizing g with
  | nil => exact fun h => Or.inl h
  | cons su rest ih =>
    intro h
    rw [List.foldl_cons] at h
    rcases ih h with h | ⟨su', hsu', hrest⟩
    · rcases MemAt_processStop h with h | ⟨t, ht⟩
      · exact Or.inl h
      · exact Or.inr ⟨su, List.mem_cons_self su rest, t, ht⟩
    · exact Or.inr ⟨su', List.mem_cons_of_mem su hsu', hrest⟩

theorem MemAt_groupArrivals {current_time cutoff_time : Int}
    {trip_updates : List TripUpdate} {s : String} {a : ArrivalData}
    (h : MemAt s a (groupArrivals current_time cutoff_time trip_updates)) :
    ∃ trip ∈ trip_updates, ∃ su ∈ trip.stop_updates, ∃ t,
      su.arrival_time = some t ∧ su.stop_id = s ∧
      t ≠ 0 ∧ current_time < t ∧ t ≤ cutoff_time ∧
      a = mkArrivalData current_time trip su t := by
  unfold groupArrivals at h
  revert h
  generalize hg : ([] : Grouping) = g0
  have h0 : ¬ MemAt s a g0 := by
    rw [← hg]
    rintro ⟨p, hp, _⟩
    simp at hp
  clear hg
  induction trip_updates generalizing g0 with
  | nil => exact fun h => absurd h h0
  | cons trip rest ih =>
    intro h
    rw [List.foldl_cons] at h
    by_cases hmem : MemAt s a (groupTrip current_time cutoff_time g0 trip)
    · rcases MemAt_groupTrip hmem with h' | ⟨su, hsu, t, ht⟩
      · exact absurd h' h0
      · exact ⟨trip, List.mem_cons_self trip rest, su, hsu, t, ht⟩
    · rcases ih _ hmem h with ⟨trip', htrip', rest'⟩
      exact ⟨trip', List.mem_cons_of_mem trip htrip', rest'⟩

/-! ## The merge phase -/

theorem foldl_append_eq {α β : Type} (l : List β) (f : β → List α) (acc : List α) :
    l.foldl (fun a b => a ++ f b) acc = acc ++ (l.map f).flatten := by
  induction l generalizing acc with
  | nil => simp
  | cons b rest ih =>
    rw [List.foldl_cons, ih, List.map_cons, List.flatten_cons, List.append_assoc]

theorem stationMerge_eq_flatten (m : Nat) (routes : RouteGroups) :
    stationMerge m routes =
      (routes.map (fun q => (sortByArrivalTime q.2).take m)).flatten := by
  unfold stationMerge
  rw [foldl_append_eq]
  simp

theorem stationMerge_cons (m : Nat) (q : String × List ArrivalData)
    (rest : RouteGroups) : stationMerge m (q :: rest) =
      (sortByArrivalTime q.2).take m ++ stationMerge m rest := by
  rw [stationMerge_eq_flatten, stationMerge_eq_flatten, List.map_cons, List.flatten_cons]

theorem mem_stationMerge {m : Nat} {routes : RouteGroups} {a : ArrivalData}
    (h : a ∈ stationMerge m routes) : ∃ q ∈ routes, a ∈ q.2 := by
  rw [stationMerge_eq_flatten] at h
  rcases List.mem_flatten.mp h with ⟨l, hl, hal⟩
  rcases List.mem_map.mp hl with ⟨q, hq, rfl⟩
  refine ⟨q, hq, ?_⟩
  have := (List.take_sublist m (sortByArrivalTime q.2)).mem hal
  exact (List.mem_insertionSort byTime).mp this

theorem output_mem_elim {trip_updates : List TripUpdate} {minutes_ahead : Int}
    {max_trains_per_route : Nat} {current_time : Int} {s : String}
    {l : List ArrivalData}
    (h : (s, l) ∈ _process_arrivals trip_updates minutes_ahead max_trains_per_route current_time) :
    ∃ routes, (s, routes) ∈
        groupArrivals current_time (current_time + minutes_ahead * 60) trip_updates ∧
      l = sortByArrivalTime (stationMerge max_trains_per_route routes) := by
  unfold _process_arrivals at h
  rcases List.mem_map.mp h with ⟨p, hp, he⟩
  have hs : p.1 = s := congrArg Prod.fst he
  have hl : sortByArrivalTime (stationMerge max_trains_per_route p.2) = l :=
    congrArg Prod.snd he
  exact ⟨p.2, by rw [← hs]; exact hp, hl.symm⟩

/-- Every arrival in a station's output list is stored under that station
in the grouping. -/
theorem memAt_of_mem_output {trip_updates : List TripUpdate} {minutes_ahead : Int}
    {max_trains_per_route : Nat} {current_time : Int} {s : String}
    {l : List ArrivalData} {a : ArrivalData}
    (h : (s, l) ∈ _process_arrivals trip_updates minutes_ahead max_trains_per_route current_time)
    (ha : a ∈ l) :
    MemAt s a (groupArrivals current_time (current_time + minutes_ahead * 60) trip_updates) := by
  rcases output_mem_elim h with ⟨routes, hroutes, rfl⟩
  have ha' : a ∈ stationMerge max_trains_per_route routes :=
    (List.mem_insertionSort byTime).mp ha
  rcases mem_stationMerge ha' with ⟨q, hq, haq⟩
  exact ⟨(s, routes), hroutes, rfl, q, hq, haq⟩

/-- Master provenance lemma: every arrival emitted for station `s` arises
from a qualifying stop-time record of the input, with all fields copied by
`mkArrivalData`. -/
theorem output_provenance {trip_updates : List TripUpdate} {minutes_ahead : Int}
    {max_trains_per_route : Nat} {current_time : Int} {s : String}
    {l : List ArrivalData} {a : ArrivalData}
    (h : (s, l) ∈ _process_arrivals trip_updates minutes_ahead max_trains_per_route current_time)
    (ha : a ∈ l) :
    ∃ trip ∈ trip_updates, ∃ su ∈ trip.stop_updates, ∃ t,
      su.arrival_time = some t ∧ su.stop_id = s ∧
      t ≠ 0 ∧ current_time < t ∧ t ≤ current_time + minutes_ahead * 60 ∧
      a = mkArrivalData current_time trip su t :=
  MemAt_groupArrivals (memAt_of_mem_output h ha)

/-! ## Content characterization: the grouping holds exactly the
qualifying records, in source order -/

theorem lookup2D_processStop (current_time cutoff_time : Int) (trip : TripUpdate)
    (g : Grouping) (su : StopTimeUpdate) (s r : String) :
    lookup2D (processStop current_time cutoff_time trip g su) s r =
      lookup2D g s r ++
        (if trip.route_id = r then stopQualAt current_time cutoff_time s trip su else []) := by
  unfold processStop stopQualAt
  cases su.arrival_time with
  | none => simp
  | some t =>
    dsimp only
    by_cases hc : t ≠ 0 ∧ current_time < t ∧ t ≤ cutoff_time
    · rw [if_pos hc, lookup2D_dd2Append]
      by_cases hsr : s = su.stop_id ∧ r = trip.route_id
      · rw [if_pos hsr, if_pos hsr.2.symm, if_pos ⟨hsr.1.symm, hc⟩]
      · rw [if_neg hsr]
        by_cases hr : trip.route_id = r
        · rw [if_pos hr]
          have hns : ¬ su.stop_id = s := fun he => hsr ⟨he.symm, hr.symm⟩
          rw [if_neg (fun hc' => hns hc'.1)]
          simp
        · rw [if_neg hr]
          simp
    · have hg : (if su.stop_id = s ∧ t ≠ 0 ∧ current_time < t ∧ t ≤ cutoff_time then
          [mkArrivalData current_time trip su t] else []) = [] := by
        rw [if_neg (fun hc' => hc hc'.2)]
      rw [if_neg hc, hg]
      simp

theorem lookup2D_groupTrip (current_time cutoff_time : Int) (g : Grouping)
    (trip : TripUpdate) (s r : String) :
    lookup2D (groupTrip current_time cutoff_time g trip) s r =
      lookup2D g s r ++
        (if trip.route_id = r then
          trip.stop_updates.flatMap (stopQualAt current_time cutoff_time s trip) else []) := by
  unfold groupTrip
  generalize trip.stop_updates = sus
  induction sus generalizing g with
  | nil => simp
  | cons su rest ih =>
    rw [List.foldl_cons, ih, lookup2D_processStop, List.flatMap_cons]
    by_cases hr : trip.route_id = r
    · rw [if_pos hr, if_pos hr, if_pos hr, List.append_assoc]
    · rw [if_neg hr, if_neg hr, if_neg hr]
      simp

theorem lookup2D_groupArrivals (current_time cutoff_time : Int)
    (trip_updates : List TripUpdate) (s r : String) :
    lookup2D (groupArrivals current_time cutoff_time trip_updates) s r =
      qualifying current_time cutoff_time trip_updates s r := by
  have main : ∀ (trips : List TripUpdate) (g0 : Grouping),
      lookup2D (trips.foldl (groupTrip current_time cutoff_time) g0) s r =
        lookup2D g0 s r ++
          trips.flatMap (fun trip =>
            if trip.route_id = r then
              trip.stop_updates.flatMap (stopQualAt current_time cutoff_time s trip)
            else []) := by
    intro trips
    induction trips with
    | nil => simp
    | cons trip rest ih =>
      intro g0
      rw [List.foldl_cons, ih, lookup2D_groupTrip, List.flatMap_cons, List.append_assoc]
  unfold groupArrivals qualifying
  rw [main]
  rfl

/-! ## Station keys: present exactly when some record qualifies -/

theorem ite_singleton_ne_nil {α : Type} {c : Prop} [Decidable c] (x : α) :
    (if c then [x] else ([] : List α)) ≠ [] ↔ c := by
  by_cases h : c <;> simp [h]

theorem append_ne_nil_iff {α : Type} (a b : List α) :
    a ++ b ≠ [] ↔ a ≠ [] ∨ b ≠ [] := by
  rw [ne_eq, List.append_eq_nil]
  by_cases h : a = [] <;> by_cases h2 : b = [] <;> simp [h, h2]

theorem mem_keysOf_processStop (current_time cutoff_time : Int) (trip : TripUpdate)
    (g : Grouping) (su : StopTimeUpdate) (s : String) :
    s ∈ keysOf (processStop current_time cutoff_time trip g su) ↔
      s ∈ keysOf g ∨ stopQualAt current_time cutoff_time s trip su ≠ [] := by
  unfold processStop stopQualAt
  cases su.arrival_time with
  | none => simp
  | some t =>
    dsimp only
    rw [ite_singleton_ne_nil]
    by_cases hc : t ≠ 0 ∧ current_time < t ∧ t ≤ cutoff_time
    · rw [if_pos hc, mem_keysOf_dd2Append]
      constructor
      · rintro (h | h)
        · exact Or.inl h
        · exact Or.inr ⟨h.symm, hc⟩
      · rintro (h | h)
        · exact Or.inl h
        · exact Or.inr h.1.symm
    · rw [if_neg hc]
      constructor
      · exact Or.inl
      · rintro (h | h)
        · exact h
        · exact absurd h.2 hc

theorem mem_keysOf_groupTrip (current_time cutoff_time : Int) (g : Grouping)
    (trip : TripUpdate) (s : String) :
    s ∈ keysOf (groupTrip current_time cutoff_time g trip) ↔
      s ∈ keysOf g ∨
        trip.stop_updates.flatMap (stopQualAt current_time cutoff_time s trip) ≠ [] := by
  unfold groupTrip
  generalize trip.stop_updates = sus
  induction sus generalizing g with
  | nil => simp
  | cons su rest ih =>
    rw [List.foldl_cons, ih, mem_keysOf_processStop, List.flatMap_cons,
      append_ne_nil_iff]
    exact or_assoc

theorem mem_keysOf_groupArrivals (current_time cutoff_time : Int)
    (trip_updates : List TripUpdate) (s : String) :
    s ∈ keysOf (groupArrivals current_time cutoff_time trip_updates) ↔
      qualStation current_time cutoff_time trip_updates s ≠ [] := by
  have main : ∀ (trips : List TripUpdate) (g0 : Grouping),
      s ∈ keysOf (trips.foldl (groupTrip current_time cutoff_time) g0) ↔
        s ∈ keysOf g0 ∨
          trips.flatMap (fun trip =>
            trip.stop_updates.flatMap (stopQualAt current_time cutoff_time s trip)) ≠ [] := by
    intro trips
    induction trips with
    | nil => simp
    | cons trip rest ih =>
      intro g0
      rw [List.foldl_cons, ih, mem_keysOf_groupTrip, List.flatMap_cons,
        append_ne_nil_iff]
      exact or_assoc
  unfold groupArrivals qualStation
  rw [main]
  simp [keysOf]

/-! ## Stability of the sort -/

theorem filter_orderedInsert (p : ArrivalData → Bool)
    (hp : ∀ x y, p x = true → p y = true → byTime x y) (a : ArrivalData)
    (l : List ArrivalData) :
    (List.orderedInsert byTime a l).filter p =
      if p a then a :: l.filter p else l.filter p := by
  induction l with
  | nil =>
    cases hpa : p a <;> simp [List.orderedInsert, hpa]
  | cons b rest ih =>
    by_cases hab : byTime a b
    · cases hpa : p a <;>
        simp [List.orderedInsert, hab, List.filter_cons, hpa]
    · cases hpa : p a with
      | false =>
        cases hpb : p b <;>
          simp [List.orderedInsert, hab, List.filter_cons, hpa, hpb, ih]
      | true =>
        have hpb : p b = false := by
          cases hpb : p b with
          | false => rfl
          | true => exact absurd (hp a b hpa hpb) hab
        simp [List.orderedInsert, hab, List.filter_cons, hpa, hpb, ih]

theorem filter_sortByArrivalTime (p : ArrivalData → Bool)
    (hp : ∀ x y, p x = true → p y = true → byTime x y) (l : List ArrivalData) :
    (sortByArrivalTime l).filter p = l.filter p := by
  unfold sortByArrivalTime
  induction l with
  | nil => rfl
  | cons a rest ih =>
    show (List.orderedInsert byTime a (List.insertionSort byTime rest)).filter p = _
    rw [filter_orderedInsert p hp, ih, List.filter_cons]

/-! ## Per-route counting and filtering in the merged list -/

theorem mem_take_sort {m : Nat} {l : List ArrivalData} {a : ArrivalData}
    (h : a ∈ (sortByArrivalTime l).take m) : a ∈ l :=
  (List.mem_insertionSort byTime).mp ((List.take_sublist m (sortByArrivalTime l)).mem h)

theorem countP_route_eq_zero {m : Nat} {routes : RouteGroups} {r : String}
    (p : ArrivalData → Bool) (hroute : ∀ a, p a = true → a.route = r)
    (htags : ∀ q ∈ routes, ∀ a ∈ q.2, a.route = q.1)
    (hnr : r ∉ keysOf routes) :
    (stationMerge m routes).countP p = 0 := by
  rw [List.countP_eq_zero]
  intro a ha hpa
  rcases mem_stationMerge ha with ⟨q, hq, haq⟩
  have h1 : a.route = q.1 := htags q hq a haq
  have h2 : a.route = r := hroute a hpa
  exact hnr (h2 ▸ h1 ▸ List.mem_map.mpr ⟨q, hq, rfl⟩)

theorem countP_stationMerge_le {m : Nat} {routes : RouteGroups} {r : String}
    (p : ArrivalData → Bool) (hroute : ∀ a, p a = true → a.route = r)
    (htags : ∀ q ∈ routes, ∀ a ∈ q.2, a.route = q.1)
    (hnodup : (keysOf routes).Nodup) :
    (stationMerge m routes).countP p ≤ m := by
  induction routes with
  | nil => simp [stationMerge]
  | cons q rest ih =>
    rw [stationMerge_cons, List.countP_append]
    have hnodup' : (keysOf rest).Nodup := (List.nodup_cons.mp hnodup).2
    have htags' : ∀ q' ∈ rest, ∀ a ∈ q'.2, a.route = q'.1 :=
      fun q' hq' => htags q' (List.mem_cons_of_mem q hq')
    by_cases hqr : q.1 = r
    · have htail : (stationMerge m rest).countP p = 0 :=
        countP_route_eq_zero p hroute htags'
          (by rw [← hqr]; exact (List.nodup_cons.mp hnodup).1)
      rw [htail]
      have hhead : ((sortByArrivalTime q.2).take m).countP p ≤ m := by
        calc ((sortByArrivalTime q.2).take m).countP p
            ≤ ((sortByArrivalTime q.2).take m).length := List.countP_le_length p
          _ ≤ m := by rw [List.length_take]; exact inf_le_left
      omega
    · have hhead : ((sortByArrivalTime q.2).take m).countP p = 0 := by
        rw [List.countP_eq_zero]
        intro a ha hpa
        have h1 : a.route = q.1 := htags q (List.mem_cons_self q rest) a (mem_take_sort ha)
        exact hqr (h1 ▸ hroute a hpa)
      rw [hhead]
      simpa using ih htags' hnodup'

theorem filter_stationMerge_eq {m : Nat} {routes : RouteGroups} {r : String}
    (p : ArrivalData → Bool) (hroute : ∀ a, p a = true → a.route = r)
    (htags : ∀ q ∈ routes, ∀ a ∈ q.2, a.route = q.1)
    (hnodup : (keysOf routes).Nodup) :
    (stationMerge m routes).filter p =
      ((sortByArrivalTime (lookupD routes r [])).take m).filter p := by
  induction routes with
  | nil => simp [stationMerge, lookupD, sortByArrivalTime, List.insertionSort]
  | cons q rest ih =>
    rw [stationMerge_cons, List.filter_append]
    have hnodup' : (keysOf rest).Nodup := (List.nodup_cons.mp hnodup).2
    have htags' : ∀ q' ∈ rest, ∀ a ∈ q'.2, a.route = q'.1 :=
      fun q' hq' => htags q' (List.mem_cons_of_mem q hq')
    by_cases hqr : q.1 = r
    · have htail : (stationMerge m rest).filter p = [] := by
        rw [List.filter_eq_nil_iff]
        intro a ha hpa
        rcases mem_stationMerge ha with ⟨q', hq', haq'⟩
        have h1 : a.route = q'.1 := htags' q' hq' a haq'
        have h2 : q'.1 ∈ keysOf rest := List.mem_map.mpr ⟨q', hq', rfl⟩
        have h3 : r ∉ keysOf rest := by
          rw [← hqr]
          exact (List.nodup_cons.mp hnodup).1
        exact h3 ((hroute a hpa) ▸ h1 ▸ h2)
      rw [htail, List.append_nil]
      unfold lookupD
      rw [if_pos hqr]
    · have hhead : ((sortByArrivalTime q.2).take m).filter p = [] := by
        rw [List.filter_eq_nil_iff]
        intro a ha hpa
        have h1 : a.route = q.1 := htags q (List.mem_cons_self q rest) a (mem_take_sort ha)
        exact hqr (h1 ▸ hroute a hpa)
      rw [hhead, List.nil_append]
      unfold lookupD
      rw [if_neg hqr]
      exact ih htags' hnodup'

/-! ## Lookup vs membership -/

theorem lookupD_eq_of_mem {β : Type} {g : List (String × β)} {k : String} {v : β}
    (d : β) (hnodup : (keysOf g).Nodup) (h : (k, v) ∈ g) : lookupD g k d = v := by
  induction g with
  | nil => simp at h
  | cons p rest ih =>
    rcases List.mem_cons.mp h with rfl | h
    · unfold lookupD
      rw [if_pos rfl]
    · unfold lookupD
      have hk : ¬ p.1 = k := by
        intro he
        have : p.1 ∈ keysOf rest := by
          rw [he]
          exact List.mem_map.mpr ⟨(k, v), h, rfl⟩
        exact (List.nodup_cons.mp hnodup).1 this
      rw [if_neg hk]
      exact ih (List.nodup_cons.mp hnodup).2 h

theorem mem_keysOf_iff {β : Type} {g : List (String × β)} {s : String} :
    s ∈ keysOf g ↔ ∃ v, (s, v) ∈ g := by
  unfold keysOf
  rw [List.mem_map]
  constructor
  · rintro ⟨p, hp, rfl⟩
    exact ⟨p.2, hp⟩
  · rintro ⟨v, hv⟩
    exact ⟨(s, v), hv, rfl⟩

/-! ## Nonemptiness -/

theorem sortByArrivalTime_ne_nil {l : List ArrivalData} (h : l ≠ []) :
    sortByArrivalTime l ≠ [] := by
  intro hc
  have : (sortByArrivalTime l).length = l.length := List.length_insertionSort byTime l
  rw [hc] at this
  exact h (List.length_eq_zero.mp this.symm)

theorem stationMerge_ne_nil {m : Nat} {routes : RouteGroups} (hm : 1 ≤ m)
    (hne : routes ≠ []) (hinner : ∀ q ∈ routes, q.2 ≠ []) :
    stationMerge m routes ≠ [] := by
  cases routes with
  | nil => exact absurd rfl hne
  | cons q rest =>
    rw [stationMerge_cons]
    apply List.append_ne_nil_of_left_ne_nil
    rw [ne_eq, List.take_eq_nil_iff]
    push_neg
    constructor
    · omega
    · exact sortByArrivalTime_ne_nil (hinner q (List.mem_cons_self q rest))

/-! ## Feed fetching -/

/-- What one endpoint contributes to the combined list: its parsed updates
on success, nothing on failure. -/
def feedContribution (r : Except String (List TripUpdate)) : List TripUpdate :=
  match r with
  | Except.ok ts => ts
  | Except.error _ => []

theorem get_mta_feed_data_eq (fetch_results : List (Except String (List TripUpdate))) :
    get_mta_feed_data fetch_results = (fetch_results.map feedContribution).flatten := by
  unfold get_mta_feed_data
  have main : ∀ (l : List (Except String (List TripUpdate))) (acc : List TripUpdate),
      l.foldl (fun acc r => match r with
        | Except.ok ts => acc ++ ts
        | Except.error _ => acc) acc = acc ++ (l.map feedContribution).flatten := by
    intro l
    induction l with
    | nil => simp
    | cons r rest ih =>
      intro acc
      rw [List.foldl_cons]
      cases r with
      | ok ts => rw [ih]; simp [feedContribution]
      | error e => rw [ih]; simp [feedContribution]
  rw [main]
  simp

theorem okFeeds_flatten_eq (fetch_results : List (Except String (List TripUpdate))) :
    (okFeeds fetch_results).flatten = (fetch_results.map feedContribution).flatten := by
  induction fetch_results with
  | nil => rfl
  | cons r rest ih =>
    cases r with
    | ok ts => simp [okFeeds, feedContribution, List.filterMap_cons] at ih ⊢; rw [ih]
    | error e => simp [okFeeds, feedContribution, List.filterMap_cons] at ih ⊢; rw [ih]

/-! ## Concrete inputs used in the examples, counterexamples and witnesses -/

def stnA : String := "A"
def rteR : String := "R"
def rteR1 : String := "R1"
def rteR2 : String := "R2"
def trpT : String := "t"
def trpT1 : String := "t1"
def trpT2 : String := "t2"
def trpT3 : String := "t3"

/-- A stop-time record at station A with the given arrival time and no
other optional fields. -/
def exStop (t : Int) : StopTimeUpdate := ⟨stnA, some t, none, none, none⟩

/-- The spec's six-updates example: one trip of route R with stop-time
updates at 1100..1600 at station A. -/
def exTrip6 : TripUpdate :=
  ⟨trpT, rteR, none,
    [exStop 1100, exStop 1200, exStop 1300, exStop 1400, exStop 1500, exStop 1600]⟩

/-- One trip of route R with a single stop-time update at 1100, no delay. -/
def exTripSingle : TripUpdate := ⟨trpT, rteR, none, [exStop 1100]⟩

/-- One trip whose only stop-time update has arrival_time 0. -/
def exTripZero : TripUpdate := ⟨trpT, rteR, none, [exStop 0]⟩

/-- Expected output arrival for route R / trip t at station A. -/
def exArrR (t mw : Int) : ArrivalData := ⟨rteR, t, mw, trpT, none, none⟩

def exT1 : TripUpdate := ⟨trpT1, rteR1, none, [exStop 200]⟩
def exT2 : TripUpdate := ⟨trpT2, rteR2, none, [exStop 100]⟩
def exT3 : TripUpdate := ⟨trpT3, rteR1, none, [exStop 100]⟩

def exTieOut1 : ArrivalData := ⟨rteR1, 100, 1, trpT3, none, none⟩
def exTieOut2 : ArrivalData := ⟨rteR2, 100, 1, trpT2, none, none⟩
def exTieOut3 : ArrivalData := ⟨rteR1, 200, 3, trpT1, none, none⟩

def exStationName : String := "Astoria Blvd"
def exStopId : String := "R01N"
def exQuery : String := "tor"
def exTable : StationTable := [(exStationName, [exStopId])]

/-! ## Claim theorems -/

/-- C1: every arrival prediction emitted by the process has an
arrival_time strictly greater than the current time and at most
current time plus minutes_ahead * 60; and an input all of whose stop-time
records have an absent arrival_time or one outside this open-lower /
closed-upper window produces no prediction at all. -/
theorem processArrivals_window :
    (∀ (trip_updates : List TripUpdate) (minutes_ahead : Int)
        (max_trains_per_route : Nat) (current_time : Int) (s : String)
        (l : List ArrivalData) (a : ArrivalData),
      (s, l) ∈ _process_arrivals trip_updates minutes_ahead max_trains_per_route current_time →
      a ∈ l →
      current_time < a.arrival_time ∧
        a.arrival_time ≤ current_time + minutes_ahead * 60) ∧
    (∀ (trip_updates : List TripUpdate) (minutes_ahead : Int)
        (max_trains_per_route : Nat) (current_time : Int),
      (∀ trip ∈ trip_updates, ∀ su ∈ trip.stop_updates, ∀ t : Int,
        su.arrival_time = some t →
        ¬(current_time < t ∧ t ≤ current_time + minutes_ahead * 60)) →
      _process_arrivals trip_updates minutes_ahead max_trains_per_route current_time = []) := by
  constructor
  · intro trips minutes m ct s l a h ha
    rcases output_provenance h ha with ⟨trip, _, su, _, t, _, _, _, hlt, hle, rfl⟩
    exact ⟨hlt, hle⟩
  · intro trips minutes m ct hnone
    by_cases hg : groupArrivals ct (ct + minutes * 60) trips = []
    · unfold _process_arrivals
      dsimp only
      rw [hg]
      rfl
    · exfalso
      rcases List.exists_mem_of_ne_nil _ hg with ⟨p, hp⟩
      have hkey : p.1 ∈ keysOf (groupArrivals ct (ct + minutes * 60) trips) :=
        List.mem_map.mpr ⟨p, hp, rfl⟩
      rw [mem_keysOf_groupArrivals] at hkey
      rcases List.exists_mem_of_ne_nil _ hkey with ⟨a, ha⟩
      unfold qualStation at ha
      rcases List.mem_flatMap.mp ha with ⟨trip, htrip, ha2⟩
      rcases List.mem_flatMap.mp ha2 with ⟨su, hsu, ha3⟩
      unfold stopQualAt at ha3
      cases hat : su.arrival_time with
      | none =>
        simp only [hat] at ha3
        exact absurd ha3 (List.not_mem_nil a)
      | some t =>
        simp only [hat] at ha3
        by_cases hc : su.stop_id = p.1 ∧ t ≠ 0 ∧ ct < t ∧ t ≤ ct + minutes * 60
        · exact hnone trip htrip su hsu t hat ⟨hc.2.2.1, hc.2.2.2⟩
        · rw [if_neg hc] at ha3
          simp at ha3

/-- C1 witness: the prediction emitted for the single record at 1100 with
current time 1000 and a 60-minute horizon lies in the window. -/
theorem processArrivals_window_witness :
    (1000 : Int) < (exArrR 1100 1).arrival_time ∧
      (exArrR 1100 1).arrival_time ≤ 1000 + 60 * 60 :=
  processArrivals_window.1 [exTripSingle] 60 5 1000 stnA [exArrR 1100 1]
    (exArrR 1100 1) (by decide) (by decide)

/-- C2: within each (station, route) group the qualifying predictions are
sorted by arrival_time and truncated to max_trains_per_route before the
merge, so no (station, route) pair contributes more than
max_trains_per_route predictions to a station's output list; and on the
spec's concrete example (now 1000, 60-minute horizon, six updates at
1100..1600 for one route at one station, cap 5) exactly the five earliest
appear and the 1600 entry is dropped. -/
theorem processArrivals_route_cap :
    (∀ (trip_updates : List TripUpdate) (minutes_ahead : Int)
        (max_trains_per_route : Nat) (current_time : Int) (s : String)
        (l : List ArrivalData) (r : String),
      (s, l) ∈ _process_arrivals trip_updates minutes_ahead max_trains_per_route current_time →
      l.countP (fun a => a.route == r) ≤ max_trains_per_route) ∧
    _process_arrivals [exTrip6] 60 5 1000 =
      [(stnA, [exArrR 1100 1, exArrR 1200 3, exArrR 1300 5,
        exArrR 1400 6, exArrR 1500 8])] := by
  constructor
  · intro trips minutes m ct s l r h
    rcases output_mem_elim h with ⟨routes, hroutes, rfl⟩
    obtain ⟨_, hnodup2, _, _, htags⟩ :=
      GInv_groupArrivals ct (ct + minutes * 60) trips
    unfold sortByArrivalTime
    rw [List.Perm.countP_eq _ (List.perm_insertionSort byTime (stationMerge m routes))]
    exact countP_stationMerge_le _ (fun a ha => eq_of_beq ha)
      (htags (s, routes) hroutes) (hnodup2 (s, routes) hroutes)
  · decide

/-- C2 witness: on the spec's example output list, route R contributes at
most five predictions. -/
theorem processArrivals_route_cap_witness :
    ([exArrR 1100 1, exArrR 1200 3, exArrR 1300 5, exArrR 1400 6,
      exArrR 1500 8]).countP (fun a => a.route == rteR) ≤ 5 :=
  processArrivals_route_cap.1 [exTrip6] 60 5 1000 stnA
    [exArrR 1100 1, exArrR 1200 3, exArrR 1300 5, exArrR 1400 6, exArrR 1500 8]
    rteR (by decide)

/-- C3 counterexample: the claim that predictions tied on arrival_time
appear in the same relative order as their source records in the input,
including across routes, is false.  Input order of records at station A:
trip t1 (route R1, time 200), trip t2 (route R2, time 100), trip t3
(route R1, time 100).  The output holds the tied pair (both time 100) as
t3 before t2, the reverse of their source order, because the final stable
sort preserves the route-grouped order (all of R1's group precedes R2's
group), not the input order. -/
theorem processArrivals_tie_order_counterexample :
    _process_arrivals [exT1, exT2, exT3] 60 5 0 =
        [(stnA, [exTieOut1, exTieOut2, exTieOut3])] ∧
      exTieOut1.arrival_time = exTieOut2.arrival_time ∧
      exTieOut1.trip_id = trpT3 ∧ exTieOut2.trip_id = trpT2 := by
  refine ⟨by decide, rfl, rfl, rfl⟩

/-- C3 amended: ties are stable only within a single route.  For any
station s, route r and time value t, the sublist of emitted predictions at
s with route r and arrival_time t is a sublist of the qualifying records
of (s, r) taken in source order — so two tied predictions from the same
route preserve their source order; tied predictions from different routes
follow the route-group order instead. -/
theorem processArrivals_tie_order_same_route :
    ∀ (trip_updates : List TripUpdate) (minutes_ahead : Int)
      (max_trains_per_route : Nat) (current_time : Int) (s r : String) (t : Int)
      (l : List ArrivalData),
      (s, l) ∈ _process_arrivals trip_updates minutes_ahead max_trains_per_route current_time →
      (l.filter (fun a => a.route == r && a.arrival_time == t)).Sublist
        (qualifying current_time (current_time + minutes_ahead * 60) trip_updates s r) := by
  intro trips minutes m ct s r t l h
  rcases output_mem_elim h with ⟨routes, hroutes, rfl⟩
  obtain ⟨hnodup1, hnodup2, _, _, htags⟩ :=
    GInv_groupArrivals ct (ct + minutes * 60) trips
  have hp : ∀ x y, (fun a => a.route == r && a.arrival_time == t) x = true →
      (fun a => a.route == r && a.arrival_time == t) y = true → byTime x y := by
    intro x y hx hy
    rw [Bool.and_eq_true] at hx hy
    have hx2 : x.arrival_time = t := eq_of_beq hx.2
    have hy2 : y.arrival_time = t := eq_of_beq hy.2
    unfold byTime
    rw [hx2, hy2]
  have hroute : ∀ a : ArrivalData,
      (fun a => a.route == r && a.arrival_time == t) a = true → a.route = r := by
    intro a ha
    rw [Bool.and_eq_true] at ha
    exact eq_of_beq ha.1
  rw [filter_sortByArrivalTime _ hp,
    filter_stationMerge_eq _ hroute (htags (s, routes) hroutes)
      (hnodup2 (s, routes) hroutes)]
  have hq : lookupD routes r [] =
      qualifying ct (ct + minutes * 60) trips s r := by
    have h1 : lookupD (groupArrivals ct (ct + minutes * 60) trips) s [] = routes :=
      lookupD_eq_of_mem [] hnodup1 hroutes
    have h2 := lookup2D_groupArrivals ct (ct + minutes * 60) trips s r
    unfold lookup2D at h2
    rw [h1] at h2
    exact h2
  rw [← hq]
  have hsub1 : (((sortByArrivalTime (lookupD routes r [])).take m).filter
        (fun a => a.route == r && a.arrival_time == t)).Sublist
      ((sortByArrivalTime (lookupD routes r [])).filter
        (fun a => a.route == r && a.arrival_time == t)) :=
    List.Sublist.filter _ (List.take_sublist m _)
  rw [filter_sortByArrivalTime _ hp] at hsub1
  exact hsub1.trans (List.filter_sublist (lookupD routes r []))

/-- C3 witness for the amended theorem: instantiated on the counterexample
input at route R1 and time 100. -/
theorem processArrivals_tie_order_same_route_witness :
    (([exTieOut1, exTieOut2, exTieOut3]).filter
        (fun a => a.route == rteR1 && a.arrival_time == 100)).Sublist
      (qualifying 0 (0 + 60 * 60) [exT1, exT2, exT3] stnA rteR1) :=
  processArrivals_tie_order_same_route [exT1, exT2, exT3] 60 5 0 stnA rteR1 100
    [exTieOut1, exTieOut2, exTieOut3] (by decide)

/-- C4 counterexample: a stop-time record with an absent delay and a
present, qualifying arrival_time yields a prediction whose delay is
absent (None), not 0.  The parser always sets the delay key, so the
Python expression stop_update.get('delay', 0) returns the stored None
rather than the default 0. -/
theorem processArrivals_delay_counterexample :
    _process_arrivals [exTripSingle] 60 5 1000 =
        [(stnA, [⟨rteR, 1100, 1, trpT, none, none⟩])] ∧
      (exStop 1100).delay = none ∧
      (⟨rteR, 1100, 1, trpT, none, none⟩ : ArrivalData).delay ≠ some 0 := by
  refine ⟨by decide, rfl, by decide⟩

/-- C4 amended: every emitted prediction carries its source record's
delay value unchanged — an absent (None) delay is passed through as
absent, not replaced by 0; the get default would apply only to a record
dict lacking the delay key, which the parser never produces. -/
theorem processArrivals_delay_passthrough :
    ∀ (trip_updates : List TripUpdate) (minutes_ahead : Int)
      (max_trains_per_route : Nat) (current_time : Int) (s : String)
      (l : List ArrivalData) (a : ArrivalData),
      (s, l) ∈ _process_arrivals trip_updates minutes_ahead max_trains_per_route current_time →
      a ∈ l →
      ∃ trip ∈ trip_updates, ∃ su ∈ trip.stop_updates,
        su.stop_id = s ∧ su.arrival_time = some a.arrival_time ∧
        a.delay = su.delay ∧ a.route = trip.route_id ∧ a.trip_id = trip.trip_id := by
  intro trips minutes m ct s l a h ha
  rcases output_provenance h ha with ⟨trip, htrip, su, hsu, t, hat, hstop, _, _, _, rfl⟩
  exact ⟨trip, htrip, su, hsu, hstop, hat, rfl, rfl, rfl⟩

/-- C4 witness for the amended theorem: instantiated on the single-record
input whose delay is absent. -/
theorem processArrivals_delay_passthrough_witness :
    ∃ trip ∈ [exTripSingle], ∃ su ∈ trip.stop_updates,
      su.stop_id = stnA ∧
      su.arrival_time = some (⟨rteR, 1100, 1, trpT, none, none⟩ : ArrivalData).arrival_time ∧
      (⟨rteR, 1100, 1, trpT, none, none⟩ : ArrivalData).delay = su.delay ∧
      (⟨rteR, 1100, 1, trpT, none, none⟩ : ArrivalData).route = trip.route_id ∧
      (⟨rteR, 1100, 1, trpT, none, none⟩ : ArrivalData).trip_id = trip.trip_id :=
  processArrivals_delay_passthrough [exTripSingle] 60 5 1000 stnA
    [⟨rteR, 1100, 1, trpT, none, none⟩] ⟨rteR, 1100, 1, trpT, none, none⟩
    (by decide) (by decide)

/-- C5: within any single station's output list, arrival_time is
non-decreasing from first to last entry. -/
theorem processArrivals_sorted :
    ∀ (trip_updates : List TripUpdate) (minutes_ahead : Int)
      (max_trains_per_route : Nat) (current_time : Int) (s : String)
      (l : List ArrivalData),
      (s, l) ∈ _process_arrivals trip_updates minutes_ahead max_trains_per_route current_time →
      l.Pairwise (fun a b => a.arrival_time ≤ b.arrival_time) := by
  intro trips minutes m ct s l h
  rcases output_mem_elim h with ⟨routes, _, rfl⟩
  have hs : List.Sorted byTime
      (List.insertionSort byTime (stationMerge m routes)) :=
    List.sorted_insertionSort byTime (stationMerge m routes)
  exact List.Pairwise.imp (fun hab => hab) hs

/-- C5 witness: the output list of the tie example is pairwise
non-decreasing on arrival_time. -/
theorem processArrivals_sorted_witness :
    ([exTieOut1, exTieOut2, exTieOut3]).Pairwise
      (fun a b => a.arrival_time ≤ b.arrival_time) :=
  processArrivals_sorted [exT1, exT2, exT3] 60 5 0 stnA
    [exTieOut1, exTieOut2, exTieOut3] (by decide)

/-- C6 counterexample: with max_trains_per_route = 0 a station that has a
qualifying prediction still appears as a key, mapped to an empty list —
the grouping is built before the cap is applied, and the cap empties the
list.  This falsifies the claim that no key ever maps to an empty list. -/
theorem processArrivals_empty_station_counterexample :
    _process_arrivals [exTripSingle] 60 0 1000 = [(stnA, [])] := by
  decide

/-- C6 amended: the output mapping's keys are exactly the stations with at
least one qualifying prediction (for every cap value), and when
max_trains_per_route is at least 1 — in particular at the default 5 — no
key maps to an empty list. -/
theorem processArrivals_station_keys :
    (∀ (trip_updates : List TripUpdate) (minutes_ahead : Int)
        (max_trains_per_route : Nat) (current_time : Int) (s : String),
      (∃ l, (s, l) ∈ _process_arrivals trip_updates minutes_ahead max_trains_per_route current_time) ↔
        qualStation current_time (current_time + minutes_ahead * 60) trip_updates s ≠ []) ∧
    (∀ (trip_updates : List TripUpdate) (minutes_ahead : Int)
        (max_trains_per_route : Nat) (current_time : Int) (s : String)
        (l : List ArrivalData),
      1 ≤ max_trains_per_route →
      (s, l) ∈ _process_arrivals trip_updates minutes_ahead max_trains_per_route current_time →
      l ≠ []) := by
  constructor
  · intro trips minutes m ct s
    have hkeys : keysOf (_process_arrivals trips minutes m ct) =
        keysOf (groupArrivals ct (ct + minutes * 60) trips) := by
      unfold _process_arrivals keysOf
      dsimp only
      rw [List.map_map]
      rfl
    rw [← mem_keysOf_groupArrivals, ← hkeys, mem_keysOf_iff]
  · intro trips minutes m ct s l hm h
    rcases output_mem_elim h with ⟨routes, hroutes, rfl⟩
    obtain ⟨_, _, hne, hinner, _⟩ := GInv_groupArrivals ct (ct + minutes * 60) trips
    exact sortByArrivalTime_ne_nil
      (stationMerge_ne_nil hm (hne (s, routes) hroutes)
        (hinner (s, routes) hroutes))

/-- C6 witness for the amended theorem: the single-record input with the
default cap yields a nonempty list for station A, and station A's key is
present exactly because a prediction qualifies. -/
theorem processArrivals_station_keys_witness :
    ([⟨rteR, 1100, 1, trpT, none, none⟩] : List ArrivalData) ≠ [] :=
  processArrivals_station_keys.2 [exTripSingle] 60 5 1000 stnA
    [⟨rteR, 1100, 1, trpT, none, none⟩] (by decide) (by decide)

/-- C7: every emitted prediction's minutes_away equals the floor of
(arrival_time - current_time) / 60, computed with integer floor division
on epoch seconds. -/
theorem processArrivals_minutes_away :
    ∀ (trip_updates : List TripUpdate) (minutes_ahead : Int)
      (max_trains_per_route : Nat) (current_time : Int) (s : String)
      (l : List ArrivalData) (a : ArrivalData),
      (s, l) ∈ _process_arrivals trip_updates minutes_ahead max_trains_per_route current_time →
      a ∈ l →
      a.minutes_away = Int.fdiv (a.arrival_time - current_time) 60 := by
  intro trips minutes m ct s l a h ha
  rcases output_provenance h ha with ⟨trip, _, su, _, t, _, _, _, _, _, rfl⟩
  rfl

/-- C7 witness: for the prediction at 1100 with current time 1000,
minutes_away is (1100 - 1000) fdiv 60 = 1. -/
theorem processArrivals_minutes_away_witness :
    (exArrR 1100 1).minutes_away =
      Int.fdiv ((exArrR 1100 1).arrival_time - 1000) 60 :=
  processArrivals_minutes_away [exTripSingle] 60 5 1000 stnA
    [exArrR 1100 1] (exArrR 1100 1) (by decide) (by decide)

/-- C10: a stop-time record whose arrival_time equals 0 never produces a
prediction (no emitted prediction has arrival_time 0), even when 0 lies
inside the window, as for current time -100 and a 10-minute horizon — the
Python truthiness test treats 0 like an absent value. -/
theorem processArrivals_zero_arrival_dropped :
    (∀ (trip_updates : List TripUpdate) (minutes_ahead : Int)
        (max_trains_per_route : Nat) (current_time : Int) (s : String)
        (l : List ArrivalData) (a : ArrivalData),
      (s, l) ∈ _process_arrivals trip_updates minutes_ahead max_trains_per_route current_time →
      a ∈ l → a.arrival_time ≠ 0) ∧
    _process_arrivals [exTripZero] 10 5 (-100) = [] := by
  constructor
  · intro trips minutes m ct s l a h ha
    rcases output_provenance h ha with ⟨trip, _, su, _, t, _, _, hne, _, _, rfl⟩
    exact hne
  · decide

/-- C10 witness: the emitted prediction at 1100 has nonzero
arrival_time. -/
theorem processArrivals_zero_arrival_dropped_witness :
    (exArrR 1100 1).arrival_time ≠ 0 :=
  processArrivals_zero_arrival_dropped.1 [exTripSingle] 60 5 1000 stnA
    [exArrR 1100 1] (exArrR 1100 1) (by decide) (by decide)

/-- C8: get_mta_feed_data always returns normally with exactly the
concatenation of the successful endpoints' trip updates, and removing a
failing endpoint from the input does not change the result — one bad
endpoint never fails the whole call and contributes nothing. -/
theorem get_mta_feed_data_isolates_failures :
    (∀ fetch_results : List (Except String (List TripUpdate)),
      get_mta_feed_data fetch_results = (okFeeds fetch_results).flatten) ∧
    (∀ (pre post : List (Except String (List TripUpdate))) (e : String),
      get_mta_feed_data (pre ++ Except.error e :: post) =
        get_mta_feed_data (pre ++ post)) := by
  constructor
  · intro results
    rw [get_mta_feed_data_eq, okFeeds_flatten_eq]
  · intro pre post e
    rw [get_mta_feed_data_eq, get_mta_feed_data_eq, List.map_append,
      List.map_append, List.map_cons, List.flatten_append, List.flatten_append,
      List.flatten_cons]
    show _ ++ (feedContribution (Except.error e) ++ _) = _
    rw [show feedContribution (Except.error e) = [] from rfl, List.nil_append]

/-- C9: the station-search endpoint raises a 400-equivalent error exactly
when the query is shorter than 2 characters; for queries of length at
least 2 it returns the table entries whose lowercased name contains the
lowercased query as a substring, mapped to their stop ids. -/
theorem api_search_stations_spec :
    ∀ (table : StationTable) (q : String),
      (api_search_stations table q = Except.error 400 ↔ q.length < 2) ∧
      (2 ≤ q.length →
        api_search_stations table q =
          Except.ok (StationLookup_search_stations table q)) ∧
      (∀ p, p ∈ StationLookup_search_stations table q ↔
        p ∈ table ∧ containsChars q.toLower.toList p.1.toLower.toList = true) := by
  intro table q
  refine ⟨?_, ?_, ?_⟩
  · unfold api_search_stations
    by_cases h : q.length < 2
    · simp [h]
    · simp [h]
  · intro h
    unfold api_search_stations
    rw [if_neg (by omega)]
  · intro p
    unfold StationLookup_search_stations
    exact List.mem_filter

/-- C9 witness: searching for "tor" in a one-entry table with name
"Astoria Blvd" succeeds (length 3 is at least 2) and returns that
entry. -/
theorem api_search_stations_spec_witness :
    api_search_stations exTable exQuery =
      Except.ok (StationLookup_search_stations exTable exQuery) :=
  (api_search_stations_spec exTable exQuery).2.1 (by decide)
